import Mathlib

set_option maxRecDepth 40000

/-!
Verification of the supercutter core (subtitle keyword matcher, corpus
scanner, timecode codec, EDL synthesizer) against its specification.

The Python source (`supercutter.py`) is shallowly embedded below: Python
floats for times and frame rates become `ℚ`, Python strings become `String`,
iterators become lists, and the `AssertionError` raised by `write_edl`
becomes an `Option String` error component.  Each definition keeps the name
and the control structure of the source function it embeds.
-/

/-- One occurrence of a keyword in a video:
`Keyword = namedtuple("Keyword", "word start end")`. -/
structure Keyword where
  word : String
  start : ℚ
  «end» : ℚ
deriving DecidableEq, Repr

/-- One caption cue as exposed by `webvtt.read`: the cue text and the
start/end times in seconds (`caption.text`, `caption._start`, `caption._end`). -/
structure Caption where
  text : String
  start : ℚ
  «end» : ℚ
deriving DecidableEq, Repr

/-- One video and the keyword occurrences within it:
`Video = namedtuple("Video", "id vttpath vidpath fps hits")`. -/
structure Video where
  id : String
  vttpath : String
  vidpath : String
  fps : ℚ
  hits : List Keyword
deriving DecidableEq, Repr

/-- Python substring containment `word in line`. -/
def pyIn (word line : String) : Bool :=
  decide (word.data <:+: line.data)

/-- The inner keyword scan of `find_keywords`:
`for word in keywords: if word in line: yield Keyword(word, start, end)`. -/
def lineHits (keywords : List String) (start stop : ℚ) (line : String) :
    List Keyword :=
  keywords.filterMap fun word =>
    if pyIn word line then some ⟨word, start, stop⟩ else none

/-- The per-line loop of `find_keywords` over the physical lines of one cue,
threading the `prevline` duplicate-suppression state:
lines equal to `prevline` are skipped (`continue`) without scanning and
without a state update; any other line becomes the new state and is scanned. -/
def scanLines (keywords : List String) (start stop : ℚ) :
    String → List String → List Keyword × String
  | prevline, [] => ([], prevline)
  | prevline, line :: rest =>
    if line = prevline then
      scanLines keywords start stop prevline rest
    else
      let tail := scanLines keywords start stop line rest
      (lineHits keywords start stop line ++ tail.1, tail.2)

/-- Python `str.strip()` (no argument): drop leading and trailing
whitespace. -/
def pyStrip (l : List Char) : List Char :=
  ((l.dropWhile Char.isWhitespace).reverse.dropWhile Char.isWhitespace).reverse

/-- Python `str.lower()`: lowercase every character. -/
def pyLower (l : List Char) : List Char :=
  l.map Char.toLower

/-- Python `str.split("\n")`: split at every newline, keeping empty pieces;
the empty string yields `[""]`. -/
def splitNl : List Char → List (List Char)
  | [] => [[]]
  | c :: cs =>
    if c = '\n' then [] :: splitNl cs
    else
      match splitNl cs with
      | [] => [[c]]
      | r :: rs => (c :: r) :: rs

/-- Model of `caption.text.strip().lower().split("\n")`. -/
def captionLines (text : String) : List String :=
  (splitNl (pyLower (pyStrip text.data))).map fun l => String.mk l

/-- The caption loop of `find_keywords`, with the `prevline` state threaded
across the whole cue sequence (it is not reset between cues). -/
def find_keywordsAux (keywords : List String) :
    String → List Caption → List Keyword
  | _, [] => []
  | prevline, c :: cs =>
    let scanned := scanLines keywords c.start c.«end» prevline
      (captionLines c.text)
    scanned.1 ++ find_keywordsAux keywords scanned.2 cs

/-- Model of `find_keywords(vttfile, keywords)`: searches one subtitle track
(modelled as its parsed cue list) for keywords; `prevline` starts as `""`. -/
def find_keywords (captions : List Caption) (keywords : List String) :
    List Keyword :=
  find_keywordsAux keywords "" captions

/-- Model of an `os.scandir` entry: file name, file path, and the cue list that
`webvtt.read` yields for that file. -/
structure DirEntry where
  name : String
  path : String
  cues : List Caption
deriving DecidableEq, Repr

/-- Model of `find_all_keywords(directory, keywords)`: scan every entry of the
directory, derive the video id as `entry.name.split("=")[0]`, and keep a
`Video` (with empty `vidpath` and zero `fps`) only when the hit list is
non-empty. -/
def find_all_keywords (entries : List DirEntry) (keywords : List String) :
    List Video :=
  match entries with
  | [] => []
  | e :: es =>
    let video_id := ((e.name.splitOn "=").headD "")
    let hits := find_keywords e.cues keywords
    if hits.isEmpty then find_all_keywords es keywords
    else ⟨video_id, e.path, "", 0, hits⟩ :: find_all_keywords es keywords

/-- Python `int()` on a rational: truncation toward zero. -/
def pyInt (q : ℚ) : ℤ :=
  if 0 ≤ q then ⌊q⌋ else ⌈q⌉

/-- Python `q % 1`: the fractional part, always in `[0, 1)`. -/
def pyMod1 (q : ℚ) : ℚ :=
  q - ⌊q⌋

/-- Python `f"{n:0w}"` for a natural number: decimal digits, left-padded
with zeros to width `w`. -/
def padNat (w : ℕ) (n : ℕ) : String :=
  let s := toString n
  String.mk (List.replicate (w - s.length) '0') ++ s

/-- Python `f"{n:0w}"` for an integer: the sign comes before the zero
padding. -/
def padInt (w : ℕ) (n : ℤ) : String :=
  if n < 0 then "-" ++ padNat (w - 1) n.natAbs else padNat w n.toNat

/-- Model of `str(datetime.timedelta(seconds=n))` for an integral number of
seconds: `H:MM:SS`, preceded by a day count when `n` does not fall within
one day. -/
def tdString (n : ℤ) : String :=
  let days := n / 86400
  let r := (n % 86400).toNat
  let core := toString (r / 3600) ++ ":" ++ padNat 2 ((r % 3600) / 60) ++
    ":" ++ padNat 2 (r % 60)
  if days = 0 then core
  else if days = 1 ∨ days = -1 then toString days ++ " day, " ++ core
  else toString days ++ " days, " ++ core

/-- Model of `timecode(secs, fps)`: `hms = timedelta(seconds=int(secs))`;
`frame = int((secs % 1) * fps)`; `f"{hms}:{frame:02}"`. -/
def timecode (secs fps : ℚ) : String :=
  let hms := tdString (pyInt secs)
  let frame := pyInt (pyMod1 secs * fps)
  hms ++ ":" ++ padInt 2 frame

/-- Model of `os.path.split(path)[1]`: the base name after the last slash. -/
def basename (p : String) : String :=
  (p.splitOn "/").getLastD ""

/-- One emitted EDL edit record of `write_edl`, before text rendering:
the sequence number, the four timecode arguments (source in/out are the
hit's start/end, program in/out are taken from the running `edit_time`
cursor), the frame rate used for its timecodes, and the clip name line's
base name. -/
structure Edit where
  num : ℕ
  srcIn : ℚ
  srcOut : ℚ
  progIn : ℚ
  progOut : ℚ
  fps : ℚ
  clip : String
deriving DecidableEq, Repr

/-- The two text lines `write_edl` emits for one edit record:
`f"{counter:03}  AX       AA/V  C        {codes}\n* FROM CLIP NAME: {path}\n"`
with `codes` the four space-joined timecodes. -/
def renderEdit (e : Edit) : String :=
  let codes := String.intercalate " "
    ([e.srcIn, e.srcOut, e.progIn, e.progOut].map fun t => timecode t e.fps)
  padNat 3 e.num ++ "  AX       AA/V  C        " ++ codes ++
    "\n* FROM CLIP NAME: " ++ e.clip ++ "\n"

/-- The message of the `assert counter < 1000` in `write_edl`. -/
def limitMsg : String := "EDL format only supports 999 edits"

/-- The inner hit loop of `write_edl` for one video: returns the emitted
edit records, the final `counter`, the final `edit_time`, and the
`AssertionError` raised when a 1000th record is requested. -/
def hitsLoop (fps : ℚ) (clip : String) :
    ℕ → ℚ → List Keyword → List Edit × ℕ × ℚ × Option String
  | counter, edit_time, [] => ([], counter, edit_time, none)
  | counter, edit_time, hit :: rest =>
    if counter < 1000 then
      let dt := hit.«end» - hit.start
      let e : Edit := ⟨counter, hit.start, hit.«end», edit_time,
        edit_time + dt, fps, clip⟩
      let tail := hitsLoop fps clip (counter + 1) (edit_time + dt) rest
      (e :: tail.1, tail.2)
    else ([], counter, edit_time, some limitMsg)

/-- The outer video loop of `write_edl`: an `AssertionError` in a video's
hit loop aborts the whole pass. -/
def videosLoop : ℕ → ℚ → List Video → List Edit × Option String
  | _, _, [] => ([], none)
  | counter, edit_time, v :: vs =>
    let r := hitsLoop v.fps (basename v.vidpath) counter edit_time v.hits
    match r.2.2.2 with
    | some m => (r.1, some m)
    | none =>
      let rest := videosLoop r.2.1 r.2.2.1 vs
      (r.1 ++ rest.1, rest.2)

/-- The header lines of `write_edl`. -/
def edlHeader (title : String) : String :=
  "TITLE: " ++ title ++ "\nFCM: DROP FRAME\n\n"

/-- Model of `write_edl(result, title, f)`: `counter` starts at 1 and `edit_time`
at 0.0.  Returns the full text written to `f` (header plus every edit
record emitted before a fatal error, in order) together with the error,
if any, with which the pass aborted.  The source streams each chunk to
`f` as soon as it is built, so on an error the text already written
stays written. -/
def write_edl (result : List Video) (title : String) :
    String × Option String :=
  let r := videosLoop 1 0 result
  (edlHeader title ++ String.join (r.1.map renderEdit), r.2)

/-- The edit records `write_edl` emits for a corpus. -/
def edlEdits (result : List Video) : List Edit :=
  (videosLoop 1 0 result).1

/-- The error with which `write_edl` aborts on a corpus, if any. -/
def edlErr (result : List Video) : Option String :=
  (videosLoop 1 0 result).2

/-- Total number of keyword hits in a corpus. -/
def totalHits (result : List Video) : ℕ :=
  (result.map fun v => v.hits.length).sum

/-- Integer truncation toward zero, as the spec's "integer truncation
(not rounding)". -/
def truncInt (q : ℚ) : ℤ :=
  if 0 ≤ q then ⌊q⌋ else ⌈q⌉

/-- The timecode rendering in the spec's words (§4.3): decompose the
integer truncation of `secs` into hours, minutes and seconds, compute the
frame as the floor of the fractional part times `fps`, and format as
`H:MM:SS:FF` with minutes, seconds and frame zero-padded to 2 digits. -/
def timecodeSpec (secs fps : ℚ) : String :=
  let t := (truncInt secs).toNat
  let frame := (⌊(secs - ((truncInt secs : ℤ) : ℚ)) * fps⌋).toNat
  toString (t / 3600) ++ ":" ++ padNat 2 (t % 3600 / 60) ++ ":" ++
    padNat 2 (t % 60) ++ ":" ++ padNat 2 frame

/-- Whether a string consists of decimal digits and colons only, as the
`H:MM:SS:FF` shape does (and the `D day(s), H:MM:SS:FF` shape, with its
space, comma and letters, does not). -/
def isTimecodeShape (s : String) : Bool :=
  s.data.all fun c => c.isDigit || c == ':'

/-- The edit records the hit loop would emit with no 999-edit cap. -/
def hitsEdits (fps : ℚ) (clip : String) : ℕ → ℚ → List Keyword → List Edit
  | _, _, [] => []
  | c, t, h :: hs =>
    ⟨c, h.start, h.«end», t, t + (h.«end» - h.start), fps, clip⟩ ::
      hitsEdits fps clip (c + 1) (t + (h.«end» - h.start)) hs

/-- The total duration of a hit list. -/
def dtSum (hs : List Keyword) : ℚ :=
  (hs.map fun h => h.«end» - h.start).sum

/-- The edit records the video loop would emit with no 999-edit cap. -/
def videoEditsAll : ℕ → ℚ → List Video → List Edit
  | _, _, [] => []
  | c, t, v :: vs =>
    hitsEdits v.fps (basename v.vidpath) c t v.hits ++
      videoEditsAll (c + v.hits.length) (t + dtSum v.hits) vs

/-- The corpus truncated to its first `n` hits. -/
def takeHits : ℕ → List Video → List Video
  | _, [] => []
  | n, v :: vs =>
    if v.hits.length ≤ n then v :: takeHits (n - v.hits.length) vs
    else [⟨v.id, v.vttpath, v.vidpath, v.fps, v.hits.take n⟩]

/-- A list of edit records chains the program cursor from `t` to `t'`:
each record's program-in is the incoming cursor and its program-out is
handed to the next record. -/
def Linked : ℚ → List Edit → ℚ → Prop
  | t, [], t' => t = t'
  | t, e :: es, t' => e.progIn = t ∧ Linked e.progOut es t'

/-- Adjacent-record contiguity of the rendered program timecodes, as
claim C3 states it: each record's program-out timecode string equals the
next record's program-in timecode string. -/
def tcContiguous : List Edit → Bool
  | [] => true
  | [_] => true
  | a :: b :: es =>
    (timecode a.progOut a.fps == timecode b.progIn b.fps) &&
      tcContiguous (b :: es)

/-- A corpus mixing a 24 fps and a 30 fps video, with a fractional
program-timeline boundary between their hits. -/
def mixedFpsCorpus : List Video :=
  [⟨"v1", "s1", "x.mp4", 24, [⟨"w", 0, mkRat 1 2⟩]⟩,
   ⟨"v2", "s2", "y.mp4", 30, [⟨"w", 0, 1⟩]⟩]

/-- A corpus with exactly 1000 keyword hits. -/
def bigCorpus : List Video :=
  [⟨"v", "s", "x.mp4", 30, List.replicate 1000 ⟨"w", 0, 1⟩⟩]

/-- A corpus with exactly 999 keyword hits, the 999-hit prefix of
`bigCorpus`. -/
def smallCorpus : List Video :=
  [⟨"v", "s", "x.mp4", 30, List.replicate 999 ⟨"w", 0, 1⟩⟩]

/-! ## Helper lemmas about the matcher -/

theorem mem_lineHits {kws : List String} {s e : ℚ} {line : String}
    {h : Keyword} (hm : h ∈ lineHits kws s e line) :
    h.word ∈ kws ∧ h.start = s ∧ h.«end» = e ∧ pyIn h.word line = true := by
  simp only [lineHits, List.mem_filterMap] at hm
  obtain ⟨w, hw, hif⟩ := hm
  by_cases hp : pyIn w line
  · rw [if_pos hp] at hif
    cases hif
    exact ⟨hw, rfl, rfl, hp⟩
  · rw [if_neg hp] at hif
    cases hif

theorem mem_scanLines (kws : List String) (s e : ℚ) :
    ∀ (ls : List String) (prev : String) (h : Keyword),
      h ∈ (scanLines kws s e prev ls).1 →
      ∃ line ∈ ls, h ∈ lineHits kws s e line
  | [], _, h, hm => by simp [scanLines] at hm
  | line :: rest, prev, h, hm => by
    by_cases hl : line = prev
    · rw [scanLines, if_pos hl] at hm
      obtain ⟨l, hl', hm'⟩ := mem_scanLines kws s e rest prev h hm
      exact ⟨l, List.mem_cons_of_mem _ hl', hm'⟩
    · rw [scanLines, if_neg hl] at hm
      rcases List.mem_append.1 hm with hm' | hm'
      · exact ⟨line, List.mem_cons_self _ _, hm'⟩
      · obtain ⟨l, hl', hm'⟩ := mem_scanLines kws s e rest line h hm'
        exact ⟨l, List.mem_cons_of_mem _ hl', hm'⟩

theorem mem_find_keywordsAux (kws : List String) :
    ∀ (cues : List Caption) (prev : String) (h : Keyword),
      h ∈ find_keywordsAux kws prev cues →
      ∃ c ∈ cues, h.start = c.start ∧ h.«end» = c.«end» ∧ h.word ∈ kws ∧
        ∃ line ∈ captionLines c.text, pyIn h.word line = true
  | [], _, h, hm => by simp [find_keywordsAux] at hm
  | c :: cs, prev, h, hm => by
    rw [find_keywordsAux] at hm
    rcases List.mem_append.1 hm with hm' | hm'
    · obtain ⟨line, hline, hl⟩ :=
        mem_scanLines kws c.start c.«end» (captionLines c.text) prev h hm'
      obtain ⟨hw, hs, he, hp⟩ := mem_lineHits hl
      exact ⟨c, List.mem_cons_self _ _, hs, he, hw, line, hline, hp⟩
    · obtain ⟨c', hc', rest⟩ := mem_find_keywordsAux kws cs _ h hm'
      exact ⟨c', List.mem_cons_of_mem _ hc', rest⟩

theorem lineHits_map_word (kws : List String) (s e : ℚ) (line : String) :
    (lineHits kws s e line).map Keyword.word =
      kws.filter fun w => pyIn w line := by
  induction kws with
  | nil => rfl
  | cons w ws ih =>
    by_cases hp : pyIn w line <;>
      simp [lineHits, List.filterMap_cons, List.filter_cons, hp] at ih ⊢ <;>
      exact ih

theorem string_ext {a b : String} (h : a.data = b.data) : a = b := by
  cases a with | mk l => cases b with | mk m => cases h; rfl

theorem string_data_nil {w : String} (hw : w ≠ "") : w.data ≠ [] := by
  intro hd
  exact hw (by cases w with | mk l => cases hd; rfl)

theorem lineHits_empty_line {kws : List String} (s e : ℚ)
    (hk : "" ∉ kws) : lineHits kws s e "" = [] := by
  induction kws with
  | nil => rfl
  | cons w ws ih =>
    have hw : w ≠ "" := fun hw => hk (hw ▸ List.mem_cons_self _ _)
    have hp : pyIn w "" = false := by
      simp only [pyIn, decide_eq_false_iff_not]
      intro hinf
      exact string_data_nil hw (List.eq_nil_of_infix_nil hinf)
    simp [lineHits, List.filterMap_cons, hp]
    intro a ha
    have ha' : a ≠ "" := fun hae => hk (hae ▸ List.mem_cons_of_mem _ ha)
    simp only [pyIn, decide_eq_false_iff_not]
    intro hinf
    exact string_data_nil ha' (List.eq_nil_of_infix_nil hinf)

/-! ## Claim C1 -/

/-- Claim C1: the matcher threads one "most recently accepted line" state
across the entire cue sequence; a physical line equal to that state is
skipped without being scanned and without a state update; any other line
is accepted, becomes the new state, and is scanned; and for the cue
sequence `["a\nb", "b\nc"]` with keyword set `{"b"}` exactly one hit is
produced, from the first cue. -/
theorem find_keywords_dedup_spec :
    (∀ (kws : List String) (s e : ℚ) (prev : String) (ls : List String),
      scanLines kws s e prev (prev :: ls) = scanLines kws s e prev ls) ∧
    (∀ (kws : List String) (s e : ℚ) (prev line : String)
      (ls : List String), line ≠ prev →
      scanLines kws s e prev (line :: ls) =
        (lineHits kws s e line ++ (scanLines kws s e line ls).1,
         (scanLines kws s e line ls).2)) ∧
    (∀ (kws : List String) (prev : String) (c : Caption)
      (cs : List Caption),
      find_keywordsAux kws prev (c :: cs) =
        (scanLines kws c.start c.«end» prev (captionLines c.text)).1 ++
        find_keywordsAux kws
          (scanLines kws c.start c.«end» prev (captionLines c.text)).2 cs) ∧
    find_keywords [⟨"a\nb", 0, 1⟩, ⟨"b\nc", 2, 3⟩] ["b"] = [⟨"b", 0, 1⟩] := by
  refine ⟨fun kws s e prev ls => by rw [scanLines, if_pos rfl],
    fun kws s e prev line ls hne => by rw [scanLines, if_neg hne],
    fun kws prev c cs => rfl, by decide⟩

/-- Witness for the hypothesis of the accepted-line law of
`find_keywords_dedup_spec`, at the concrete state `""` and line `"a"`. -/
theorem find_keywords_dedup_spec_witness :
    ("a" : String) ≠ "" ∧
    scanLines ["b"] 0 1 "" ["a"] =
      (lineHits ["b"] 0 1 "a" ++ (scanLines ["b"] 0 1 "a" []).1,
       (scanLines ["b"] 0 1 "a" []).2) :=
  ⟨by decide, find_keywords_dedup_spec.2.1 ["b"] 0 1 "" "a" [] (by decide)⟩

/-! ## Claim C6 -/

/-- Claim C6: every hit of the matcher carries a keyword of the keyword
set as found on some physical line of some cue of the input, with that
enclosing cue's start and end timestamps; the hits of one accepted line
list the matching keywords in keyword-set order; each cue's hits precede
the following cues' hits in the output; and the cue
"the cat sat on the mat" with keywords `{"cat", "mat"}` yields exactly
two hits, both with the cue's timestamps, in keyword-set order. -/
theorem find_keywords_hits_spec :
    (∀ (kws : List String) (cues : List Caption),
      ∀ h ∈ find_keywords cues kws,
        h.word ∈ kws ∧ ∃ c ∈ cues, h.start = c.start ∧ h.«end» = c.«end» ∧
          ∃ line ∈ captionLines c.text, pyIn h.word line = true) ∧
    (∀ (kws : List String) (s e : ℚ) (line : String),
      (lineHits kws s e line).map Keyword.word =
        kws.filter fun w => pyIn w line) ∧
    (∀ (kws : List String) (prev : String) (c : Caption)
      (cs : List Caption), ∃ p,
      find_keywordsAux kws prev (c :: cs) =
        (scanLines kws c.start c.«end» prev (captionLines c.text)).1 ++
        find_keywordsAux kws p cs) ∧
    find_keywords [⟨"the cat sat on the mat", 0, 1⟩] ["cat", "mat"] =
      [⟨"cat", 0, 1⟩, ⟨"mat", 0, 1⟩] := by
  refine ⟨?_, lineHits_map_word, fun kws prev c cs =>
    ⟨(scanLines kws c.start c.«end» prev (captionLines c.text)).2, rfl⟩,
    by decide⟩
  intro kws cues h hm
  obtain ⟨c, hc, hs, he, hw, hrest⟩ :=
    mem_find_keywordsAux kws cues "" h hm
  exact ⟨hw, c, hc, hs, he, hrest⟩

/-- Witness for `find_keywords_hits_spec`: its membership part applied to
the single hit of a concrete one-cue input. -/
theorem find_keywords_hits_spec_witness :
    (⟨"cat", 0, 1⟩ : Keyword) ∈
      find_keywords [⟨"a cat", 0, 1⟩] ["cat"] ∧
    (("cat" : String) ∈ ["cat"] ∧
      ∃ c ∈ [(⟨"a cat", 0, 1⟩ : Caption)],
        (⟨"cat", 0, 1⟩ : Keyword).start = c.start ∧
        (⟨"cat", 0, 1⟩ : Keyword).«end» = c.«end» ∧
        ∃ line ∈ captionLines c.text,
          pyIn (⟨"cat", 0, 1⟩ : Keyword).word line = true) :=
  ⟨by decide, find_keywords_hits_spec.1 ["cat"] [⟨"a cat", 0, 1⟩]
    ⟨"cat", 0, 1⟩ (by decide)⟩

/-! ## Claim C8 -/

/-- Counterexample to claim C8 as stated: with the keyword set `{""}`
(the empty keyword is a string like any other, and Python's `"" in line`
is always true), the cue with empty text at the second position emits a
hit carrying its own timestamps 2 and 3. -/
theorem empty_cue_empty_keyword_cx :
    find_keywords [⟨"a", 0, 1⟩, ⟨"", 2, 3⟩] [""] =
      [⟨"", 0, 1⟩, ⟨"", 2, 3⟩] ∧
    (⟨"", 2, 3⟩ : Keyword) ∈ find_keywords [⟨"a", 0, 1⟩, ⟨"", 2, 3⟩] [""] :=
  ⟨by decide, by decide⟩

/-- Claim C8 amended: for every keyword set not containing the empty
keyword, a cue whose text is empty emits no hit, at any position in the
cue sequence (that is, under any incoming duplicate-suppression state). -/
theorem empty_cue_no_hits (kws : List String) (prev : String) (s e : ℚ)
    (cs : List Caption) (hk : "" ∉ kws) :
    ∃ p, find_keywordsAux kws prev (⟨"", s, e⟩ :: cs) =
      find_keywordsAux kws p cs := by
  have hcl : captionLines "" = [""] := by decide
  rw [find_keywordsAux]
  simp only [hcl]
  by_cases hp : ("" : String) = prev
  · rw [scanLines, if_pos hp]
    exact ⟨prev, by rw [scanLines]; rfl⟩
  · rw [scanLines, if_neg hp]
    refine ⟨"", ?_⟩
    rw [lineHits_empty_line s e hk]
    rw [scanLines]
    rfl

/-- Witness for `empty_cue_no_hits` at a concrete keyword set and state. -/
theorem empty_cue_no_hits_witness :
    (("" : String) ∉ ["b"]) ∧
    ∃ p, find_keywordsAux ["b"] "a" [⟨"", 2, 3⟩, ⟨"b", 4, 5⟩] =
      find_keywordsAux ["b"] p [⟨"b", 4, 5⟩] :=
  ⟨by decide, empty_cue_no_hits ["b"] "a" 2 3 [⟨"b", 4, 5⟩] (by decide)⟩

/-! ## Claim C9 -/

/-- Claim C9: the duplicate-suppression state starts as the empty string,
so an empty physical line met while the state is still `""` is skipped as
a duplicate even though no line was ever accepted; in particular a first
cue with empty text is dropped with the state left at `""`. -/
theorem find_keywords_initial_state_spec :
    (∀ (kws : List String) (s e : ℚ) (ls : List String),
      scanLines kws s e "" ("" :: ls) = scanLines kws s e "" ls) ∧
    (∀ (kws : List String) (cues : List Caption),
      find_keywords cues kws = find_keywordsAux kws "" cues) ∧
    (∀ (kws : List String) (s e : ℚ) (cs : List Caption),
      find_keywords (⟨"", s, e⟩ :: cs) kws = find_keywords cs kws) := by
  refine ⟨fun kws s e ls => by rw [scanLines, if_pos rfl],
    fun kws cues => rfl, fun kws s e cs => ?_⟩
  show find_keywordsAux kws "" (⟨"", s, e⟩ :: cs) = find_keywordsAux kws "" cs
  have hcl : captionLines "" = [""] := by decide
  rw [find_keywordsAux]
  simp only [hcl]
  rw [scanLines, if_pos rfl]
  rw [scanLines]
  rfl

/-! ## Claim C7 -/

theorem find_all_keywords_eq (kws : List String) :
    ∀ entries : List DirEntry,
      find_all_keywords entries kws =
        (entries.filter fun e => !(find_keywords e.cues kws).isEmpty).map
          fun e => ⟨(e.name.splitOn "=").headD "", e.path, "", 0,
            find_keywords e.cues kws⟩
  | [] => rfl
  | e :: es => by
    rw [find_all_keywords]
    by_cases hh : (find_keywords e.cues kws).isEmpty <;>
      simp [List.filter_cons, hh, find_all_keywords_eq kws es]

/-- Claim C7: the scanner keeps no record for a subtitle file with empty
matcher output, and every record it returns has non-empty hits, an empty
media path, a zero frame rate, and the id taken from the file name's
prefix up to the first `=`; the returned corpus is exactly the kept
entries in directory order, each with its full matcher output. -/
theorem find_all_keywords_spec :
    (∀ (entries : List DirEntry) (kws : List String),
      find_all_keywords entries kws =
        (entries.filter fun e => !(find_keywords e.cues kws).isEmpty).map
          fun e => ⟨(e.name.splitOn "=").headD "", e.path, "", 0,
            find_keywords e.cues kws⟩) ∧
    (∀ (entries : List DirEntry) (kws : List String),
      ∀ v ∈ find_all_keywords entries kws,
        v.hits ≠ [] ∧ v.vidpath = "" ∧ v.fps = 0 ∧
        ∃ e ∈ entries, v.id = (e.name.splitOn "=").headD "" ∧
          v.vttpath = e.path ∧ v.hits = find_keywords e.cues kws) := by
  refine ⟨fun entries kws => find_all_keywords_eq kws entries, ?_⟩
  intro entries kws v hv
  rw [find_all_keywords_eq kws entries] at hv
  obtain ⟨e, he, hve⟩ := List.mem_map.1 hv
  obtain ⟨hee, hfe⟩ := List.mem_filter.1 he
  subst hve
  refine ⟨?_, rfl, rfl, e, hee, rfl, rfl, rfl⟩
  simpa using hfe

/-- Witness for `find_all_keywords_spec` at a concrete one-file
directory. -/
theorem find_all_keywords_spec_witness :
    ((⟨"id", "p", "", 0, [⟨"b", 0, 1⟩]⟩ : Video) ∈
      find_all_keywords [⟨"id=title.vtt", "p", [⟨"b", 0, 1⟩]⟩] ["b"]) ∧
    ((⟨"id", "p", "", 0, [⟨"b", 0, 1⟩]⟩ : Video).hits ≠ [] ∧
      (⟨"id", "p", "", 0, [⟨"b", 0, 1⟩]⟩ : Video).vidpath = "" ∧
      (⟨"id", "p", "", 0, [⟨"b", 0, 1⟩]⟩ : Video).fps = 0 ∧
      ∃ e ∈ [(⟨"id=title.vtt", "p", [⟨"b", 0, 1⟩]⟩ : DirEntry)],
        (⟨"id", "p", "", 0, [⟨"b", 0, 1⟩]⟩ : Video).id =
          (e.name.splitOn "=").headD "" ∧
        (⟨"id", "p", "", 0, [⟨"b", 0, 1⟩]⟩ : Video).vttpath = e.path ∧
        (⟨"id", "p", "", 0, [⟨"b", 0, 1⟩]⟩ : Video).hits =
          find_keywords e.cues ["b"]) :=
  ⟨by with_unfolding_all decide,
    find_all_keywords_spec.2 [⟨"id=title.vtt", "p", [⟨"b", 0, 1⟩]⟩] ["b"]
      ⟨"id", "p", "", 0, [⟨"b", 0, 1⟩]⟩ (by with_unfolding_all decide)⟩

/-! ## Claims C4 and C10: the timecode codec -/


theorem digitChar_isDigit {m : ℕ} (hm : m < 10) :
    (Nat.digitChar m).isDigit = true := by
  interval_cases m <;> decide

theorem toDigitsCore_digits :
    ∀ (fuel n : ℕ) (acc : List Char),
      (∀ c ∈ acc, c.isDigit = true) →
      ∀ c ∈ Nat.toDigitsCore 10 fuel n acc, c.isDigit = true
  | 0, _, _, hacc => hacc
  | fuel + 1, n, acc, hacc => by
    rw [Nat.toDigitsCore]
    have hacc' : ∀ c ∈ Nat.digitChar (n % 10) :: acc, c.isDigit = true := by
      intro c hc
      rcases List.mem_cons.1 hc with hc | hc
      · exact hc ▸ digitChar_isDigit (Nat.mod_lt n (by norm_num))
      · exact hacc c hc
    by_cases hz : n / 10 = 0
    · rw [if_pos hz]
      exact hacc'
    · rw [if_neg hz]
      exact toDigitsCore_digits fuel (n / 10) _ hacc'

theorem toString_nat_digits (n : ℕ) :
    ∀ c ∈ (toString n).data, c.isDigit = true :=
  toDigitsCore_digits (n + 1) n [] (by intro c hc; cases hc)

theorem padNat_shape (w n : ℕ) :
    ∀ c ∈ (padNat w n).data, c.isDigit = true := by
  intro c hc
  rw [padNat, String.data_append] at hc
  rcases List.mem_append.1 hc with hc | hc
  · rw [List.eq_of_mem_replicate hc]
    decide
  · exact toString_nat_digits n c hc

theorem tdString_below_day {n : ℤ} (h0 : 0 ≤ n) (hlt : n < 86400) :
    tdString n = toString (n.toNat / 3600) ++ ":" ++
      padNat 2 (n.toNat % 3600 / 60) ++ ":" ++ padNat 2 (n.toNat % 60) := by
  rw [tdString]
  have hdiv : n / 86400 = 0 := Int.ediv_eq_zero_of_lt h0 hlt
  have hmod : n % 86400 = n := Int.emod_eq_of_lt h0 hlt
  rw [hdiv, hmod, if_pos rfl]

theorem tdString_day {n : ℤ} (hn : 86400 ≤ n) :
    ∃ r : String,
      tdString n = toString (n / 86400) ++ " day" ++ r := by
  rw [tdString]
  have hd : 1 ≤ n / 86400 := by
    show 1 ≤ n / 86400
    rw [Int.le_ediv_iff_mul_le (by norm_num)]
    omega
  rw [if_neg (by omega)]
  by_cases h1 : n / 86400 = 1 ∨ n / 86400 = -1
  · rw [if_pos h1]
    refine ⟨", " ++ (toString ((n % 86400).toNat / 3600) ++ ":" ++
      padNat 2 ((n % 86400).toNat % 3600 / 60) ++ ":" ++
      padNat 2 ((n % 86400).toNat % 60)), ?_⟩
    apply string_ext
    have hdata : (" day, " : String).data =
        (" day" : String).data ++ (", " : String).data := by decide
    simp only [String.data_append, hdata, List.append_assoc, List.cons_append, List.nil_append]
  · rw [if_neg h1]
    refine ⟨"s, " ++ (toString ((n % 86400).toNat / 3600) ++ ":" ++
      padNat 2 ((n % 86400).toNat % 3600 / 60) ++ ":" ++
      padNat 2 ((n % 86400).toNat % 60)), ?_⟩
    apply string_ext
    have hdata : (" days, " : String).data =
        (" day" : String).data ++ ("s, " : String).data := by decide
    simp only [String.data_append, hdata, List.append_assoc, List.cons_append, List.nil_append]

theorem shape_append {a b : String} (ha : isTimecodeShape a = true)
    (hb : isTimecodeShape b = true) : isTimecodeShape (a ++ b) = true := by
  simp only [isTimecodeShape, String.data_append, List.all_append,
    Bool.and_eq_true] at *
  exact ⟨ha, hb⟩

theorem shape_toString_nat (n : ℕ) :
    isTimecodeShape (toString n) = true := by
  simp only [isTimecodeShape, List.all_eq_true]
  intro c hc
  simp [toString_nat_digits n c hc]

theorem shape_padNat (w n : ℕ) : isTimecodeShape (padNat w n) = true := by
  simp only [isTimecodeShape, List.all_eq_true]
  intro c hc
  simp [padNat_shape w n c hc]

theorem pyMod1_nonneg (q : ℚ) : 0 ≤ pyMod1 q :=
  sub_nonneg.2 (Int.floor_le q)

/-- Counterexample to claim C4 as stated: the claim quantifies over every
`seconds ≥ 0`, but at `seconds = 86400` (one day) the code renders a day
component, not the `H:MM:SS:FF` decomposition the claim describes. -/
theorem timecode_day_cx :
    timecode 86400 30 = "1 day, 0:00:00:00" ∧
    timecodeSpec 86400 30 = "24:00:00:00" ∧
    timecode 86400 30 ≠ timecodeSpec 86400 30 :=
  ⟨by with_unfolding_all decide, by with_unfolding_all decide,
    by with_unfolding_all decide⟩

/-- Claim C4 amended: for every `0 ≤ seconds < 86400` and `fps > 0`,
`timecode` renders the truncated whole seconds as `H:MM:SS` and appends
`floor(frac * fps)` zero-padded to two digits, exactly as the spec's
`H:MM:SS:FF` recipe; in particular `timecode(90.5, 30.0) = "0:01:30:15"`.
(For `seconds ≥ 86400` the rendering carries a day component instead.) -/
theorem timecode_spec_below_day :
    (∀ secs fps : ℚ, 0 ≤ secs → secs < 86400 → 0 < fps →
      timecode secs fps = timecodeSpec secs fps) ∧
    timecode (mkRat 181 2) 30 = "0:01:30:15" := by
  refine ⟨?_, by with_unfolding_all decide⟩
  intro secs fps h0 hlt hf
  have hint : pyInt secs = ⌊secs⌋ := if_pos h0
  have htr : truncInt secs = ⌊secs⌋ := if_pos h0
  have hn0 : (0 : ℤ) ≤ ⌊secs⌋ := Int.floor_nonneg.2 h0
  have hnlt : ⌊secs⌋ < 86400 := Int.floor_lt.2 (by exact_mod_cast hlt)
  have hfr0 : (0 : ℚ) ≤ pyMod1 secs * fps :=
    mul_nonneg (pyMod1_nonneg secs) hf.le
  have hfl0 : (0 : ℤ) ≤ pyInt (pyMod1 secs * fps) := by
    rw [pyInt, if_pos hfr0]
    exact Int.floor_nonneg.2 hfr0
  simp only [timecode, timecodeSpec, htr]
  rw [hint, tdString_below_day hn0 hnlt, padInt,
    if_neg (not_lt.2 hfl0), pyInt, if_pos hfr0, pyMod1]

/-- Witness for `timecode_spec_below_day` at `seconds = 90.5`,
`fps = 30`. -/
theorem timecode_spec_below_day_witness :
    ((0 : ℚ) ≤ mkRat 181 2 ∧ (mkRat 181 2 : ℚ) < 86400 ∧ (0 : ℚ) < 30) ∧
    timecode (mkRat 181 2) 30 = timecodeSpec (mkRat 181 2) 30 :=
  ⟨⟨by with_unfolding_all decide, by with_unfolding_all decide,
      by with_unfolding_all decide⟩,
    timecode_spec_below_day.1 (mkRat 181 2) 30
      (by with_unfolding_all decide) (by with_unfolding_all decide)
      (by with_unfolding_all decide)⟩

/-- Claim C10: below one day the whole-second part of `timecode` renders
as `H:MM:SS` and the whole string is made of digits and colons, while for
`seconds ≥ 86400` the string carries a day component (it contains
`" day"`) and is not of the digits-and-colons `H:MM:SS:FF` shape. -/
theorem timecode_day_shape :
    ∀ secs fps : ℚ, 0 ≤ secs →
      (secs < 86400 → 0 ≤ fps →
        tdString (pyInt secs) = toString ((⌊secs⌋).toNat / 3600) ++ ":" ++
          padNat 2 ((⌊secs⌋).toNat % 3600 / 60) ++ ":" ++
          padNat 2 ((⌊secs⌋).toNat % 60) ∧
        isTimecodeShape (timecode secs fps) = true) ∧
      (86400 ≤ secs →
        pyIn " day" (timecode secs fps) = true ∧
        isTimecodeShape (timecode secs fps) = false) := by
  intro secs fps h0
  have hint : pyInt secs = ⌊secs⌋ := if_pos h0
  constructor
  · intro hlt hf
    have hn0 : (0 : ℤ) ≤ ⌊secs⌋ := Int.floor_nonneg.2 h0
    have hnlt : ⌊secs⌋ < 86400 := Int.floor_lt.2 (by exact_mod_cast hlt)
    have hfr0 : (0 : ℚ) ≤ pyMod1 secs * fps :=
      mul_nonneg (pyMod1_nonneg secs) hf
    have hfl0 : (0 : ℤ) ≤ pyInt (pyMod1 secs * fps) := by
      rw [pyInt, if_pos hfr0]
      exact Int.floor_nonneg.2 hfr0
    refine ⟨by rw [hint]; exact tdString_below_day hn0 hnlt, ?_⟩
    simp only [timecode, hint, tdString_below_day hn0 hnlt]
    rw [padInt, if_neg (not_lt.2 hfl0)]
    exact shape_append (shape_append (shape_append (shape_append
      (shape_append (shape_append (shape_toString_nat _) (by decide))
        (shape_padNat _ _)) (by decide)) (shape_padNat _ _)) (by decide))
      (shape_padNat _ _)
  · intro hge
    have hnge : (86400 : ℤ) ≤ ⌊secs⌋ := Int.le_floor.2 (by exact_mod_cast hge)
    obtain ⟨r, hr⟩ := tdString_day hnge
    constructor
    · simp only [timecode, hint, hr, pyIn]
      apply decide_eq_true
      refine ⟨(toString (⌊secs⌋ / 86400)).data,
        (r ++ ":" ++ padInt 2 (pyInt (pyMod1 secs * fps))).data, ?_⟩
      simp [String.data_append, List.append_assoc]
    · simp only [timecode, hint, hr, isTimecodeShape]
      apply List.all_eq_false.2
      refine ⟨' ', ?_, by decide⟩
      simp only [String.data_append]
      refine List.mem_append_left _ (List.mem_append_left _
        (List.mem_append_left _ (List.mem_append_right _ ?_)))
      decide

/-- Witness for `timecode_day_shape` at `seconds = 90.5` (below one day)
and `seconds = 86400` (at one day), both with `fps = 30`. -/
theorem timecode_day_shape_witness :
    ((0 : ℚ) ≤ mkRat 181 2 ∧ (mkRat 181 2 : ℚ) < 86400 ∧ (0 : ℚ) ≤ 30 ∧
      isTimecodeShape (timecode (mkRat 181 2) 30) = true) ∧
    ((0 : ℚ) ≤ 86400 ∧ (86400 : ℚ) ≤ 86400 ∧
      pyIn " day" (timecode 86400 30) = true ∧
      isTimecodeShape (timecode 86400 30) = false) := by
  have h1 : (0 : ℚ) ≤ mkRat 181 2 := by with_unfolding_all decide
  have h2 : (mkRat 181 2 : ℚ) < 86400 := by with_unfolding_all decide
  have h3 : (0 : ℚ) ≤ 30 := by with_unfolding_all decide
  have h4 : (0 : ℚ) ≤ 86400 := by with_unfolding_all decide
  have h5 : (86400 : ℚ) ≤ 86400 := by with_unfolding_all decide
  have hp := (timecode_day_shape (mkRat 181 2) 30 h1).1 h2 h3
  have hn := (timecode_day_shape 86400 30 h4).2 h5
  exact ⟨⟨h1, h2, h3, hp.2⟩, ⟨h4, h5, hn.1, hn.2⟩⟩

/-! ## Helper definitions and lemmas for the EDL synthesizer -/


theorem totalHits_cons (v : Video) (vs : List Video) :
    totalHits (v :: vs) = v.hits.length + totalHits vs := by
  simp [totalHits]

theorem hitsLoop_ok (fps : ℚ) (clip : String) :
    ∀ (hs : List Keyword) (c : ℕ) (t : ℚ), c + hs.length ≤ 1000 →
      hitsLoop fps clip c t hs =
        (hitsEdits fps clip c t hs, c + hs.length, t + dtSum hs, none)
  | [], c, t, _ => by simp [hitsLoop, hitsEdits, dtSum]
  | hit :: hs, c, t, h => by
    have hlen : c + hs.length + 1 ≤ 1000 := by
      simp only [List.length_cons] at h
      omega
    have hc : c < 1000 := by omega
    simp only [hitsLoop]
    rw [if_pos hc, hitsLoop_ok fps clip hs (c + 1)
      (t + (hit.«end» - hit.start)) (by omega)]
    simp only [hitsEdits, dtSum, List.map_cons, List.sum_cons,
      List.length_cons, Prod.mk.injEq, true_and, and_true]
    exact ⟨by omega, by ring⟩

theorem hitsLoop_overflow (fps : ℚ) (clip : String) :
    ∀ (hs : List Keyword) (c : ℕ) (t : ℚ), c ≤ 1000 →
      1000 < c + hs.length →
      hitsLoop fps clip c t hs =
        (hitsEdits fps clip c t (hs.take (1000 - c)), 1000,
         t + dtSum (hs.take (1000 - c)), some limitMsg)
  | [], c, t, hc, hlen => by
    simp only [List.length_nil] at hlen
    omega
  | hit :: hs, c, t, hc, hlen => by
    by_cases hc' : c < 1000
    · simp only [hitsLoop]
      rw [if_pos hc', hitsLoop_overflow fps clip hs (c + 1)
        (t + (hit.«end» - hit.start)) (by omega)
        (by simp only [List.length_cons] at hlen; omega)]
      have htake : (hit :: hs).take (1000 - c) =
          hit :: hs.take (1000 - (c + 1)) := by
        have he : 1000 - c = (1000 - (c + 1)) + 1 := by omega
        rw [he, List.take_succ_cons]
      rw [htake]
      simp only [hitsEdits, dtSum, List.map_cons, List.sum_cons,
        Prod.mk.injEq, true_and, and_true]
      ring
    · have hc1000 : c = 1000 := by omega
      subst hc1000
      simp only [hitsLoop]
      rw [if_neg hc']
      simp [hitsEdits, dtSum]

theorem videosLoop_ok :
    ∀ (vs : List Video) (c : ℕ) (t : ℚ), c + totalHits vs ≤ 1000 →
      videosLoop c t vs = (videoEditsAll c t vs, none)
  | [], _, _, _ => rfl
  | v :: vs, c, t, h => by
    rw [totalHits_cons] at h
    simp only [videosLoop]
    rw [hitsLoop_ok v.fps (basename v.vidpath) v.hits c t (by omega)]
    dsimp only
    rw [videosLoop_ok vs (c + v.hits.length) (t + dtSum v.hits) (by omega)]
    simp [videoEditsAll]

theorem videosLoop_overflow :
    ∀ (vs : List Video) (c : ℕ) (t : ℚ), c ≤ 1000 →
      1000 < c + totalHits vs →
      videosLoop c t vs =
        (videoEditsAll c t (takeHits (1000 - c) vs), some limitMsg)
  | [], c, t, hc, hlen => by
    simp [totalHits] at hlen
    omega
  | v :: vs, c, t, hc, hlen => by
    rw [totalHits_cons] at hlen
    simp only [videosLoop]
    by_cases hv : c + v.hits.length ≤ 1000
    · rw [hitsLoop_ok v.fps (basename v.vidpath) v.hits c t hv]
      dsimp only
      rw [videosLoop_overflow vs (c + v.hits.length) (t + dtSum v.hits)
        (by omega) (by omega)]
      have hle : v.hits.length ≤ 1000 - c := by omega
      have harg : 1000 - c - v.hits.length = 1000 - (c + v.hits.length) := by
        omega
      rw [takeHits, if_pos hle, harg]
      simp [videoEditsAll]
    · rw [hitsLoop_overflow v.fps (basename v.vidpath) v.hits c t hc
        (by omega)]
      dsimp only
      have hgt : ¬ v.hits.length ≤ 1000 - c := by omega
      rw [takeHits, if_neg hgt]
      simp [videoEditsAll]

theorem range'_split : ∀ (m : ℕ) (c n : ℕ),
    List.range' c (m + n) = List.range' c m ++ List.range' (c + m) n
  | 0, c, n => by simp [List.range']
  | m + 1, c, n => by
    have h : m + 1 + n = (m + n) + 1 := by omega
    rw [h, List.range', List.range', range'_split m (c + 1) n]
    simp only [List.cons_append]
    have h2 : c + 1 + m = c + (m + 1) := by omega
    rw [h2]

theorem hitsEdits_map_num (fps : ℚ) (clip : String) :
    ∀ (hs : List Keyword) (c : ℕ) (t : ℚ),
      (hitsEdits fps clip c t hs).map Edit.num = List.range' c hs.length
  | [], _, _ => rfl
  | h :: hs, c, t => by
    rw [List.length_cons, List.range']
    simp only [hitsEdits, List.map_cons]
    rw [hitsEdits_map_num fps clip hs (c + 1) (t + (h.«end» - h.start))]

theorem videoEditsAll_map_num :
    ∀ (vs : List Video) (c : ℕ) (t : ℚ),
      (videoEditsAll c t vs).map Edit.num = List.range' c (totalHits vs)
  | [], _, _ => rfl
  | v :: vs, c, t => by
    rw [totalHits_cons, range'_split]
    simp only [videoEditsAll, List.map_append]
    rw [hitsEdits_map_num, videoEditsAll_map_num vs (c + v.hits.length)
      (t + dtSum v.hits)]

theorem videoEditsAll_length (vs : List Video) (c : ℕ) (t : ℚ) :
    (videoEditsAll c t vs).length = totalHits vs := by
  have h := congrArg List.length (videoEditsAll_map_num vs c t)
  simpa [List.length_range'] using h

theorem totalHits_takeHits :
    ∀ (n : ℕ) (vs : List Video), totalHits (takeHits n vs) = min n (totalHits vs)
  | n, [] => by simp [takeHits, totalHits]
  | n, v :: vs => by
    rw [takeHits]
    by_cases hle : v.hits.length ≤ n
    · rw [if_pos hle, totalHits_cons, totalHits_cons,
        totalHits_takeHits (n - v.hits.length) vs]
      omega
    · rw [if_neg hle, totalHits_cons]
      simp [totalHits, List.length_take]
      omega


theorem linked_append :
    ∀ {L L' : List Edit} {t t' t'' : ℚ},
      Linked t L t' → Linked t' L' t'' → Linked t (L ++ L') t''
  | [], _, _, _, _, h, h' => by
    rw [show Linked _ ([] : List Edit) _ = (_ = _) from rfl] at h
    exact h ▸ h'
  | e :: es, _, _, _, _, h, h' =>
    ⟨h.1, linked_append h.2 h'⟩

theorem linked_chain :
    ∀ (L : List Edit) (t t' : ℚ), Linked t L t' →
      List.Chain' (fun a b => a.progOut = b.progIn) L
  | [], _, _, _ => List.chain'_nil
  | [_], _, _, _ => List.chain'_singleton _
  | e :: e' :: es, _, t', h =>
    List.chain'_cons.2 ⟨h.2.1.symm,
      linked_chain (e' :: es) e.progOut t' h.2⟩

theorem linked_hitsLoop (fps : ℚ) (clip : String) :
    ∀ (hs : List Keyword) (c : ℕ) (t : ℚ),
      Linked t (hitsLoop fps clip c t hs).1 (hitsLoop fps clip c t hs).2.2.1
  | [], _, _ => rfl
  | hit :: hs, c, t => by
    by_cases hc : c < 1000
    · simp only [hitsLoop, if_pos hc]
      exact ⟨rfl, linked_hitsLoop fps clip hs (c + 1)
        (t + (hit.«end» - hit.start))⟩
    · simp only [hitsLoop, if_neg hc]
      rfl

theorem linked_videosLoop :
    ∀ (vs : List Video) (c : ℕ) (t : ℚ),
      ∃ t', Linked t (videosLoop c t vs).1 t'
  | [], _, t => ⟨t, rfl⟩
  | v :: vs, c, t => by
    have hl := linked_hitsLoop v.fps (basename v.vidpath) v.hits c t
    simp only [videosLoop]
    cases herr : (hitsLoop v.fps (basename v.vidpath) c t v.hits).2.2.2 with
    | some m =>
      exact ⟨_, hl⟩
    | none =>
      obtain ⟨t'', hrec⟩ := linked_videosLoop vs
        (hitsLoop v.fps (basename v.vidpath) c t v.hits).2.1
        (hitsLoop v.fps (basename v.vidpath) c t v.hits).2.2.1
      exact ⟨t'', linked_append hl hrec⟩

theorem hitsLoop_progOut (fps : ℚ) (clip : String) :
    ∀ (hs : List Keyword) (c : ℕ) (t : ℚ),
      ∀ e ∈ (hitsLoop fps clip c t hs).1,
        e.progOut = e.progIn + (e.srcOut - e.srcIn)
  | [], _, _, e, he => by simp [hitsLoop] at he
  | hit :: hs, c, t, e, he => by
    by_cases hc : c < 1000
    · simp only [hitsLoop, if_pos hc] at he
      rcases List.mem_cons.1 he with he' | he'
      · subst he'
        rfl
      · exact hitsLoop_progOut fps clip hs (c + 1)
          (t + (hit.«end» - hit.start)) e he'
    · simp only [hitsLoop, if_neg hc] at he
      simp at he

theorem videosLoop_progOut :
    ∀ (vs : List Video) (c : ℕ) (t : ℚ),
      ∀ e ∈ (videosLoop c t vs).1,
        e.progOut = e.progIn + (e.srcOut - e.srcIn)
  | [], _, _, e, he => by simp [videosLoop] at he
  | v :: vs, c, t, e, he => by
    simp only [videosLoop] at he
    cases herr : (hitsLoop v.fps (basename v.vidpath) c t v.hits).2.2.2 with
    | some m =>
      rw [herr] at he
      exact hitsLoop_progOut v.fps (basename v.vidpath) v.hits c t e he
    | none =>
      rw [herr] at he
      rcases List.mem_append.1 he with he' | he'
      · exact hitsLoop_progOut v.fps (basename v.vidpath) v.hits c t e he'
      · exact videosLoop_progOut vs _ _ e he'


/-! ## Claim C2 -/

/-- Claim C2: on a corpus with exactly 999 hits the synthesis succeeds
and the emitted records carry sequence numbers 1..999; on any corpus
with 1000 or more hits it aborts with the format-limit assertion when the
1000th record is requested, with exactly the 999 records before it
emitted. -/
theorem write_edl_limit_spec :
    ∀ (result : List Video) (title : String),
      (totalHits result = 999 →
        (write_edl result title).2 = none ∧
        (edlEdits result).map Edit.num = List.range' 1 999) ∧
      (1000 ≤ totalHits result →
        (write_edl result title).2 = some limitMsg ∧
        (edlEdits result).length = 999) := by
  intro result title
  constructor
  · intro h999
    have hok := videosLoop_ok result 1 0 (by omega)
    constructor
    · show (videosLoop 1 0 result).2 = none
      rw [hok]
    · rw [edlEdits, hok]
      dsimp only
      rw [videoEditsAll_map_num result 1 0, h999]
  · intro h1000
    have hov := videosLoop_overflow result 1 0 (by omega) (by omega)
    have h999 : (1000 - 1 : ℕ) = 999 := rfl
    rw [h999] at hov
    constructor
    · show (videosLoop 1 0 result).2 = some limitMsg
      rw [hov]
    · rw [edlEdits, hov]
      dsimp only
      rw [videoEditsAll_length, totalHits_takeHits]
      omega

/-- Witness for `write_edl_limit_spec` on concrete corpora with 999 and
1000 hits. -/
theorem write_edl_limit_spec_witness :
    (totalHits smallCorpus = 999 ∧
      ((write_edl smallCorpus "T").2 = none ∧
        (edlEdits smallCorpus).map Edit.num = List.range' 1 999)) ∧
    (1000 ≤ totalHits bigCorpus ∧
      ((write_edl bigCorpus "T").2 = some limitMsg ∧
        (edlEdits bigCorpus).length = 999)) :=
  ⟨⟨by decide,
    (write_edl_limit_spec smallCorpus "T").1 (by decide)⟩,
   ⟨by decide,
    (write_edl_limit_spec bigCorpus "T").2 (by decide)⟩⟩

/-! ## Claim C3 -/

/-- Counterexample to claim C3 as stated: on a corpus of a 24 fps and a
30 fps video whose boundary falls at half a second, both frame rates are
resolved and synthesis succeeds, yet the program-out timecode string of
the first record (`0:00:00:12`) differs from the program-in timecode
string of the second (`0:00:00:15`), so the rendered program timecodes
are not contiguous across the frame-rate change. -/
theorem edl_timecode_contiguity_cx :
    mixedFpsCorpus.map Video.fps = [24, 30] ∧
    edlErr mixedFpsCorpus = none ∧
    tcContiguous (edlEdits mixedFpsCorpus) = false :=
  ⟨by with_unfolding_all decide, by with_unfolding_all decide,
    by with_unfolding_all decide⟩

/-- Claim C3 amended: for every corpus, adjacent emitted records satisfy
`progOut(i) = progIn(i+1)` as program-time values (no gap, no overlap,
across any frame rates), the rendered timecode strings agree whenever
the two adjacent records share a frame rate, and `progIn < progOut`
whenever the hit's duration is positive. -/
theorem edl_program_contiguity (result : List Video) :
    List.Chain' (fun a b => a.progOut = b.progIn ∧
      (a.fps = b.fps → timecode a.progOut a.fps = timecode b.progIn b.fps))
      (edlEdits result) ∧
    ∀ e ∈ edlEdits result, e.srcIn < e.srcOut → e.progIn < e.progOut := by
  constructor
  · obtain ⟨t', hl⟩ := linked_videosLoop result 1 0
    exact (linked_chain _ 0 t' hl).imp fun a b hab =>
      ⟨hab, fun hfps => by rw [hab, hfps]⟩
  · intro e he hlt
    have h := videosLoop_progOut result 1 0 e he
    rw [h]
    linarith

/-- Witness for `edl_program_contiguity`: its duration part applied to
the first record emitted for `mixedFpsCorpus`. -/
theorem edl_program_contiguity_witness :
    ((⟨1, 0, mkRat 1 2, 0, mkRat 1 2, 24, "x.mp4"⟩ : Edit) ∈
        edlEdits mixedFpsCorpus ∧
      (⟨1, 0, mkRat 1 2, 0, mkRat 1 2, 24, "x.mp4"⟩ : Edit).srcIn <
        (⟨1, 0, mkRat 1 2, 0, mkRat 1 2, 24, "x.mp4"⟩ : Edit).srcOut) ∧
    (⟨1, 0, mkRat 1 2, 0, mkRat 1 2, 24, "x.mp4"⟩ : Edit).progIn <
      (⟨1, 0, mkRat 1 2, 0, mkRat 1 2, 24, "x.mp4"⟩ : Edit).progOut :=
  ⟨⟨by with_unfolding_all decide, by with_unfolding_all decide⟩,
    (edl_program_contiguity mixedFpsCorpus).2 _
      (by with_unfolding_all decide) (by with_unfolding_all decide)⟩

/-! ## Claim C5 -/

theorem write_edl_overflow_parts (result : List Video) (title : String)
    (h : 1000 ≤ totalHits result) :
    (write_edl result title).2 = some limitMsg ∧
    (write_edl (takeHits 999 result) title).2 = none ∧
    (write_edl result title).1 = (write_edl (takeHits 999 result) title).1 ∧
    (write_edl result title).1 ≠ "" := by
  have hov := videosLoop_overflow result 1 0 (by omega) (by omega)
  have h999 : (1000 - 1 : ℕ) = 999 := rfl
  rw [h999] at hov
  have hok := videosLoop_ok (takeHits 999 result) 1 0
    (by rw [totalHits_takeHits]; omega)
  refine ⟨?_, ?_, ?_, ?_⟩
  · show (videosLoop 1 0 result).2 = some limitMsg
    rw [hov]
  · show (videosLoop 1 0 (takeHits 999 result)).2 = none
    rw [hok]
  · show edlHeader title ++
        String.join ((videosLoop 1 0 result).1.map renderEdit) =
      edlHeader title ++
        String.join ((videosLoop 1 0 (takeHits 999 result)).1.map renderEdit)
    rw [hov, hok]
  · show edlHeader title ++
        String.join ((videosLoop 1 0 result).1.map renderEdit) ≠ ""
    intro heq
    have hd := congrArg String.data heq
    simp [edlHeader, String.data_append] at hd

/-- Counterexample to claim C5 as stated: on a 1000-hit corpus the
synthesis aborts, yet the text already streamed to the output file is not
empty and is byte-for-byte the complete, valid document that a successful
synthesis of the 999-hit corpus produces — a completed-looking EDL is
left for the caller. -/
theorem write_edl_partial_output_cx :
    (write_edl bigCorpus "Supercut").2 = some limitMsg ∧
    (write_edl smallCorpus "Supercut").2 = none ∧
    (write_edl bigCorpus "Supercut").1 = (write_edl smallCorpus "Supercut").1 ∧
    (write_edl bigCorpus "Supercut").1 ≠ "" := by
  have h : 1000 ≤ totalHits bigCorpus := by decide
  have htake : takeHits 999 bigCorpus = smallCorpus := by
    rw [bigCorpus, smallCorpus, takeHits]
    rw [if_neg (by decide)]
    rw [List.take_replicate]
    norm_num
  have hp := write_edl_overflow_parts bigCorpus "Supercut" h
  rw [htake] at hp
  exact hp

/-- Claim C5 amended: a failed synthesis does leave output for the
caller — the streamed partial text (header plus the 999 records emitted
before the abort) stays in the output file, and it coincides with the
valid completed document for the corpus truncated to its first 999 hits;
no buffering, rollback or deletion happens. -/
theorem write_edl_failure_partial_commit :
    ∀ (result : List Video) (title : String), 1000 ≤ totalHits result →
      (write_edl result title).2 = some limitMsg ∧
      (write_edl (takeHits 999 result) title).2 = none ∧
      (write_edl result title).1 =
        (write_edl (takeHits 999 result) title).1 ∧
      (write_edl result title).1 ≠ "" :=
  fun result title h => write_edl_overflow_parts result title h

/-- Witness for `write_edl_failure_partial_commit` at the concrete
1000-hit corpus. -/
theorem write_edl_failure_partial_commit_witness :
    1000 ≤ totalHits bigCorpus ∧
    ((write_edl bigCorpus "T").2 = some limitMsg ∧
      (write_edl (takeHits 999 bigCorpus) "T").2 = none ∧
      (write_edl bigCorpus "T").1 =
        (write_edl (takeHits 999 bigCorpus) "T").1 ∧
      (write_edl bigCorpus "T").1 ≠ "") :=
  ⟨by decide,
    write_edl_failure_partial_commit bigCorpus "T"
      (by decide)⟩
